import Mathlib

/-!
Verification development for the quint trace explorer.

The repository source under scrutiny is `src/app.rs`, the navigation /
session controller.  Its collaborators (`crate::diff`, `crate::tree`,
`crate::loader`) are declared by the specification but their source is not
part of the repository snapshot, so they are modelled here from the
specification's own words (each such definition says `Modelled from the
spec:` in its doc comment).  Everything taken from `src/app.rs` embeds the
Rust code directly: `usize` arithmetic becomes `Nat` arithmetic (Rust
`saturating_sub` is `Nat` subtraction, which truncates at zero).
-/

/-- Modelled from the spec: a path segment is a field name or an index
(spec section 3, Path). -/
inductive PathSeg where
  | key (s : String)
  | idx (n : Nat)
deriving DecidableEq, Repr

/-- Modelled from the spec: a Path is a sequence of path segments from a
snapshot root to a node (spec section 3). -/
abbrev NodePath := List PathSeg

/-- `DiffKind` from `crate::diff`: classification of a node's change status
(spec section 3, glossary). -/
inductive DiffKind where
  | added
  | removed
  | modified
  | unchanged
deriving DecidableEq, Repr

/-- Modelled from the spec: the recursive value model, a tagged union of
scalar text, ordered sequences and key-ordered mappings (spec section 3,
Value). -/
inductive Value where
  | scalar (text : String)
  | sequence (items : List Value)
  | mapping (entries : List (String × Value))
deriving Repr

/-- Key lookup in an ordered association list of mapping entries, returning
the first entry with the requested key. -/
def lookupVal : List (String × Value) → String → Option Value
  | [], _ => none
  | (k, v) :: rest, q => if k = q then some v else lookupVal rest q

/-- The sparse change map of a `DiffResult` (spec section 3): only
non-Unchanged entries are stored. -/
abbrev Changes := List (NodePath × DiffKind)

/-- `DiffResult` from `crate::diff`: a path-indexed map of change
annotations; absence of a path means Unchanged (spec section 3). -/
structure DiffResult where
  changes : Changes
deriving Repr

/-- Removed markers for the tail of the previous sequence that has no
positional counterpart in the current sequence (spec section 4.2). -/
def removedTail (path : NodePath) (i : Nat) (xs : List Value) : Changes :=
  (List.range xs.length).map (fun j => (path ++ [PathSeg.idx (i + j)], DiffKind.removed))

/-- Added markers for the tail of the current sequence that has no
positional counterpart in the previous sequence (spec section 4.2). -/
def addedTail (path : NodePath) (i : Nat) (ys : List Value) : Changes :=
  (List.range ys.length).map (fun j => (path ++ [PathSeg.idx (i + j)], DiffKind.added))

/-- Modelled from the spec: the Removed half of mapping pairing — a key
present only in the previous mapping has the root of its subtree recorded
Removed (spec section 4.2). -/
def diffMapRemoved (path : NodePath) (xs ys : List (String × Value)) : Changes :=
  xs.filterMap (fun kv =>
    if (lookupVal ys kv.1).isSome then none
    else some (path ++ [PathSeg.key kv.1], DiffKind.removed))

mutual
/-- Modelled from the spec: `compute_diff`'s paired recursive descent on a
single pair of nodes (spec section 4.2): scalars compare by exact text,
mismatched kinds are Modified without recursion, sequences pair
positionally, mappings pair by key; composite nodes with both sides present
record nothing for themselves. -/
def diffNode (path : NodePath) : Value → Value → Changes
  | Value.scalar a, Value.scalar b =>
      if a = b then [] else [(path, DiffKind.modified)]
  | Value.sequence xs, Value.sequence ys => diffSeq path 0 xs ys
  | Value.mapping xs, Value.mapping ys =>
      diffMapCur path xs ys ++ diffMapRemoved path xs ys
  | Value.scalar _, Value.sequence _ => [(path, DiffKind.modified)]
  | Value.scalar _, Value.mapping _ => [(path, DiffKind.modified)]
  | Value.sequence _, Value.scalar _ => [(path, DiffKind.modified)]
  | Value.sequence _, Value.mapping _ => [(path, DiffKind.modified)]
  | Value.mapping _, Value.scalar _ => [(path, DiffKind.modified)]
  | Value.mapping _, Value.sequence _ => [(path, DiffKind.modified)]

/-- Modelled from the spec: positional pairing of sequence children,
index `i` being the index of the first remaining pair (spec section 4.2). -/
def diffSeq (path : NodePath) (i : Nat) : List Value → List Value → Changes
  | xs, [] => removedTail path i xs
  | [], ys => addedTail path i ys
  | x :: xs, y :: ys =>
      diffNode (path ++ [PathSeg.idx i]) x y ++ diffSeq path (i + 1) xs ys

/-- Modelled from the spec: the current-side half of mapping pairing — a
key present in both recurses, a key present only in the current mapping has
the root of its subtree recorded Added (spec section 4.2). -/
def diffMapCur (path : NodePath) (xs : List (String × Value)) : List (String × Value) → Changes
  | [] => []
  | (k, cv) :: ys =>
      (match lookupVal xs k with
       | some pv => diffNode (path ++ [PathSeg.key k]) pv cv
       | none => [(path ++ [PathSeg.key k], DiffKind.added)]) ++ diffMapCur path xs ys
end

/-- Modelled from the spec: `compute_diff(previous, current)` pairs the
top-level entries of the two snapshots by name, exactly as at a Mapping
level (spec section 4.2). -/
def computeDiff (prev cur : List (String × Value)) : DiffResult :=
  ⟨diffMapCur [] prev cur ++ diffMapRemoved [] prev cur⟩

/-- `true` iff the list of keys has no duplicates. -/
def nodupKeysB : List String → Bool
  | [] => true
  | k :: ks => (!ks.contains k) && nodupKeysB ks

mutual
/-- Modelled from the spec: well-formedness of a value — keys are unique
within one mapping, recursively (spec section 3). -/
def wfValue : Value → Bool
  | Value.scalar _ => true
  | Value.sequence xs => wfValues xs
  | Value.mapping xs => nodupKeysB (xs.map Prod.fst) && wfEntries xs

/-- All values of a list are well-formed. -/
def wfValues : List Value → Bool
  | [] => true
  | x :: xs => wfValue x && wfValues xs

/-- All values of a mapping entry list are well-formed. -/
def wfEntries : List (String × Value) → Bool
  | [] => true
  | kv :: xs => wfValue kv.2 && wfEntries xs
end

/-- Modelled from the spec: a snapshot's top-level entries have unique
names and well-formed values (spec section 3). -/
def wfSnapshot (s : List (String × Value)) : Bool :=
  nodupKeysB (s.map Prod.fst) && wfEntries s

/-- `Snapshot` from `crate::loader`: one named set of top-level
(name, Value) pairs (spec section 3). -/
structure Snapshot where
  values : List (String × Value)
deriving Repr

/-- `Trace` from `crate::loader`: the ordered sequence of snapshots
(spec section 3). -/
structure Trace where
  states : List Snapshot
deriving Repr

/-- All snapshots of a trace are well-formed. -/
def wfTrace (t : Trace) : Bool :=
  t.states.all (fun st => wfSnapshot st.values)

/-- `ExpansionState` from `crate::tree`: the set of currently expanded
paths (spec section 3); represented as a list, membership being the set
semantics. -/
structure ExpansionState where
  paths : List NodePath
deriving Repr

/-- `ExpansionState::new`: the empty set. -/
def ExpansionState.new : ExpansionState := ⟨[]⟩

/-- Modelled from the spec: `toggle(path)` flips membership
(spec section 4.3). -/
def ExpansionState.toggle (es : ExpansionState) (p : NodePath) : ExpansionState :=
  if p ∈ es.paths then ⟨es.paths.filter (fun q => q ≠ p)⟩ else ⟨p :: es.paths⟩

/-- Modelled from the spec: `clear()` empties the set (spec section 4.3). -/
def ExpansionState.clear (_es : ExpansionState) : ExpansionState := ⟨[]⟩

/-- Modelled from the spec: `expand_all(candidate_paths)` unions the
candidates into the set (spec section 4.3). -/
def ExpansionState.expand_all (es : ExpansionState) (ps : List NodePath) : ExpansionState :=
  ⟨ps ++ es.paths⟩

/-- The strict ancestor prefixes of a path: its proper nonempty
prefixes. -/
def strictAncestors (p : NodePath) : List NodePath :=
  ((List.range p.length).map (fun n => p.take n)).filter (fun q => !q.isEmpty)

/-- Modelled from the spec: `expand_to_changes(changed_paths)` inserts
every strict ancestor prefix of every changed path, not the changed path
itself (spec section 4.3). -/
def ExpansionState.expand_to_changes (es : ExpansionState) (changed : List NodePath) : ExpansionState :=
  ⟨changed.flatMap strictAncestors ++ es.paths⟩

/-- The semantic style tag carried by a span, independent of diff color
(spec section 4.4): keyword, string, number or punctuation. -/
inductive SemStyle where
  | keyword
  | stringLit
  | number
  | punctuation
deriving DecidableEq, Repr

/-- One styled text fragment of a tree line (spec section 3, TreeLine). -/
structure StyledSpan where
  text : String
  style : SemStyle
deriving DecidableEq, Repr

/-- `TreeLine` from `crate::tree`: one renderable row (spec section 3). -/
structure TreeLine where
  path : NodePath
  depth : Nat
  expandable : Bool
  diff : DiffKind
  spans : List StyledSpan
deriving DecidableEq, Repr

/-- A node is expandable iff its kind is Sequence or Mapping and it has at
least one child (spec section 4.4). -/
def isExpandable : Value → Bool
  | Value.scalar _ => false
  | Value.sequence xs => !xs.isEmpty
  | Value.mapping xs => !xs.isEmpty

/-- Lookup of a path in the sparse change map, returning the first
matching entry. -/
def lookupChange : Changes → NodePath → Option DiffKind
  | [], _ => none
  | (q, k) :: rest, p => if q = p then some k else lookupChange rest p

/-- Modelled from the spec: the diff classification of a tree line — its
own entry in the diff result, or the Added/Removed classification inherited
from the nearest recorded ancestor, or Unchanged (spec sections 4.4, 9). -/
def effectiveDiff (d : DiffResult) (p : NodePath) (inh : Option DiffKind) : DiffKind :=
  match lookupChange d.changes p with
  | some k => k
  | none =>
    match inh with
    | some k => k
    | none => DiffKind.unchanged

/-- The classification passed down to children: Added/Removed inherit,
anything else does not (spec sections 4.4, 9). -/
def childInherit (eff : DiffKind) : Option DiffKind :=
  match eff with
  | DiffKind.added => some DiffKind.added
  | DiffKind.removed => some DiffKind.removed
  | _ => none

/-- Truncation of span texts to a character budget, with a truncation
marker when content is cut (spec section 4.4). -/
def truncSpans (budget : Nat) : List StyledSpan → List StyledSpan
  | [] => []
  | s :: rest =>
    if s.text.length ≤ budget then s :: truncSpans (budget - s.text.length) rest
    else [⟨s.text.take budget ++ "…", s.style⟩]

/-- Modelled from the spec: the label content of a node — its name, a
punctuation separator, and for scalars the value text, for containers a
compact preview of the container's size (spec section 4.4). -/
def spanContent (name : String) : Value → List StyledSpan
  | Value.scalar t => [⟨name, SemStyle.keyword⟩, ⟨": ", SemStyle.punctuation⟩, ⟨t, SemStyle.stringLit⟩]
  | Value.sequence xs =>
      [⟨name, SemStyle.keyword⟩, ⟨": ", SemStyle.punctuation⟩,
       ⟨"[" ++ toString xs.length ++ " items]", SemStyle.punctuation⟩]
  | Value.mapping xs =>
      [⟨name, SemStyle.keyword⟩, ⟨": ", SemStyle.punctuation⟩,
       ⟨"(" ++ toString xs.length ++ " fields)", SemStyle.punctuation⟩]

/-- Modelled from the spec: a label line's spans — indentation of
`2 * depth` columns, then the content truncated to the remaining width
(spec section 4.4). -/
def buildSpans (name : String) (v : Value) (depth width : Nat) : List StyledSpan :=
  ⟨String.mk (List.replicate (2 * depth) ' '), SemStyle.punctuation⟩
    :: truncSpans (width - 2 * depth) (spanContent name v)

mutual
/-- Modelled from the spec: `render_value` — every node produces exactly
one TreeLine for itself; children are recursively materialized at depth+1
immediately after the parent's line iff the parent's path is a member of
the expansion state, and are otherwise omitted entirely
(spec section 4.4). -/
def renderValue (name : String) (v : Value) (path : NodePath) (es : ExpansionState)
    (diff : DiffResult) (inh : Option DiffKind) (depth width : Nat) : List TreeLine :=
  let eff := effectiveDiff diff path inh
  TreeLine.mk path depth (isExpandable v) eff (buildSpans name v depth width)
    :: (if path ∈ es.paths then
          match v with
          | Value.scalar _ => []
          | Value.sequence xs => renderSeq xs path es diff (childInherit eff) (depth + 1) width 0
          | Value.mapping xs => renderMap xs path es diff (childInherit eff) (depth + 1) width
        else [])

/-- Materialization of the children of a sequence node, `i` being the index
of the first remaining child. -/
def renderSeq (xs : List Value) (path : NodePath) (es : ExpansionState) (diff : DiffResult)
    (inh : Option DiffKind) (depth width i : Nat) : List TreeLine :=
  match xs with
  | [] => []
  | x :: rest =>
      renderValue (toString i) x (path ++ [PathSeg.idx i]) es diff inh depth width
        ++ renderSeq rest path es diff inh depth width (i + 1)

/-- Materialization of the children of a mapping node. -/
def renderMap (xs : List (String × Value)) (path : NodePath) (es : ExpansionState)
    (diff : DiffResult) (inh : Option DiffKind) (depth width : Nat) : List TreeLine :=
  match xs with
  | [] => []
  | kv :: rest =>
      renderValue kv.1 kv.2 (path ++ [PathSeg.key kv.1]) es diff inh depth width
        ++ renderMap rest path es diff inh depth width
end

/-- Application state (`App` in `src/app.rs`). -/
structure App where
  trace : Trace
  current_state : Nat
  should_quit : Bool
  expansion : ExpansionState
  cursor : Nat
  scroll_offset : Nat
  auto_expand : Bool
deriving Repr

/-- `App::new` from `src/app.rs`. -/
def App.new (trace : Trace) (auto_expand : Bool) : App :=
  ⟨trace, 0, false, ExpansionState.new, 0, 0, auto_expand⟩

/-- `App::ensure_cursor_visible` from `src/app.rs`: scroll the viewport so
the cursor stays within a two-line padding of its edges (Rust
`saturating_sub` is `Nat` subtraction). -/
def App.ensure_cursor_visible (app : App) (viewport_height : Nat) : App :=
  let padding := 2
  if app.cursor < app.scroll_offset + padding then
    { app with scroll_offset := app.cursor - padding }
  else if app.cursor ≥ app.scroll_offset + viewport_height - padding then
    { app with scroll_offset := app.cursor - (viewport_height - padding - 1) }
  else app

/-- `compute_diff_for_state` from `src/app.rs`: no diff for the first
state, otherwise `compute_diff` of the previous and current snapshot
values (list indexing is modelled totally with an empty default; the event
loop only indexes in bounds). -/
def compute_diff_for_state (app : App) : DiffResult :=
  if app.current_state = 0 then ⟨[]⟩
  else
    computeDiff ((app.trace.states.getD (app.current_state - 1) ⟨[]⟩).values)
      ((app.trace.states.getD app.current_state ⟨[]⟩).values)

/-- `auto_expand_changes` from `src/app.rs`: clear previous expansions,
then expand to the changed paths of the current diff. -/
def auto_expand_changes (app : App) : App :=
  let a := { app with expansion := ExpansionState.clear app.expansion }
  let diff := compute_diff_for_state a
  let changed := diff.changes.map Prod.fst
  { a with expansion := ExpansionState.expand_to_changes a.expansion changed }

/-- Materialization of one snapshot's top-level entries, in order. -/
def renderSnapshot (s : List (String × Value)) (es : ExpansionState) (diff : DiffResult)
    (width : Nat) : List TreeLine :=
  match s with
  | [] => []
  | (n, v) :: rest =>
      renderValue n v [PathSeg.key n] es diff none 0 width
        ++ renderSnapshot rest es diff width

/-- `build_tree_lines` from `src/app.rs`: materialize every top-level
entry of the current snapshot, each rooted at the path made of its own
name. -/
def build_tree_lines (app : App) (diff : DiffResult) (terminal_width : Nat) : List TreeLine :=
  match app.trace.states[app.current_state]? with
  | some state => renderSnapshot state.values app.expansion diff terminal_width
  | none => []

/-- The values of the current snapshot, empty when the index is out of
bounds (mirrors `build_tree_lines`). -/
def currentValues (app : App) : List (String × Value) :=
  match app.trace.states[app.current_state]? with
  | some state => state.values
  | none => []

/-- The discrete input commands the event loop of `src/app.rs` interprets
(spec section 6; pointer commands are outside the claims and omitted). -/
inductive Command where
  | prevState
  | nextState
  | cursorUp
  | cursorDown
  | pageUp
  | pageDown
  | homeKey
  | endKey
  | toggleAtCursor
  | expandAllCmd
  | collapseAll
  | quitCmd
deriving DecidableEq, Repr

/-- The key-event dispatch of the event loop in `src/app.rs` (lines
92-161), as a pure state transformer over the tree lines, line count and
viewport height computed earlier in the same iteration. -/
def handleKey (app : App) (tree_lines : List TreeLine) (line_count viewport_height : Nat) :
    Command → App
  | Command.quitCmd => { app with should_quit := true }
  | Command.prevState =>
    if app.current_state > 0 then
      let a := { app with current_state := app.current_state - 1, cursor := 0, scroll_offset := 0 }
      if a.auto_expand then auto_expand_changes a else a
    else app
  | Command.nextState =>
    if app.current_state + 1 < app.trace.states.length then
      let a := { app with current_state := app.current_state + 1, cursor := 0, scroll_offset := 0 }
      if a.auto_expand then auto_expand_changes a else a
    else app
  | Command.cursorUp =>
    if app.cursor > 0 then { app with cursor := app.cursor - 1 } else app
  | Command.cursorDown =>
    if app.cursor + 1 < line_count then { app with cursor := app.cursor + 1 } else app
  | Command.pageUp =>
    { app with cursor := app.cursor - (viewport_height - 2) }
  | Command.pageDown =>
    { app with cursor := min (app.cursor + (viewport_height - 2)) (line_count - 1) }
  | Command.homeKey => { app with cursor := 0 }
  | Command.endKey =>
    if line_count > 0 then { app with cursor := line_count - 1 } else app
  | Command.toggleAtCursor =>
    match tree_lines[app.cursor]? with
    | some line =>
      if line.expandable then { app with expansion := ExpansionState.toggle app.expansion line.path }
      else app
    | none => app
  | Command.collapseAll => { app with expansion := ExpansionState.clear app.expansion }
  | Command.expandAllCmd =>
    let expandable_paths := (tree_lines.filter (fun l => l.expandable)).map (fun l => l.path)
    { app with expansion := ExpansionState.expand_all app.expansion expandable_paths }

/-- The per-iteration bound enforcement of the event loop in `src/app.rs`
(lines 80-86): clamp the cursor below the line count when lines exist, then
scroll the cursor into view. -/
def loop_clamp (app : App) (line_count viewport_height : Nat) : App :=
  let a :=
    if app.cursor ≥ line_count ∧ line_count > 0 then { app with cursor := line_count - 1 }
    else app
  App.ensure_cursor_visible a viewport_height

/-- Terminal colors used by `render` in `src/app.rs`. -/
inductive Color where
  | white
  | green
  | red
  | yellow
  | darkGray
  | cyan
  | magenta
  | indexed (n : Nat)
deriving DecidableEq, Repr

/-- Modelled from the spec: the semantic palette of `crate::tree`; the
concrete colors are unspecified by the spec, only that punctuation-free
tags carry a color of their own, so an arbitrary fixed palette is used. -/
def SemStyle.toColor : SemStyle → Option Color
  | SemStyle.keyword => some Color.cyan
  | SemStyle.stringLit => some Color.green
  | SemStyle.number => some Color.magenta
  | SemStyle.punctuation => none

/-- The diff color of `render` in `src/app.rs` (lines 293-298). -/
def diffColor : DiffKind → Option Color
  | DiffKind.added => some Color.green
  | DiffKind.removed => some Color.red
  | DiffKind.modified => some Color.yellow
  | DiffKind.unchanged => none

/-- One device span produced by `render`: text plus resolved foreground
and background colors. -/
structure RSpan where
  text : String
  fg : Option Color
  bg : Option Color
deriving DecidableEq, Repr

/-- The span styling of `render` in `src/app.rs` (lines 300-317): the diff
color, when present, is the foreground of every span; otherwise each span
keeps its semantic color; a selected line gets a dark-gray background. -/
def styledSpans (line : TreeLine) (is_selected : Bool) : List RSpan :=
  let bg := if is_selected then some Color.darkGray else none
  let dc := diffColor line.diff
  line.spans.map (fun s => ⟨s.text, if dc.isSome then dc else s.style.toColor, bg⟩)

/-- A value is a container iff its kind is Sequence or Mapping. -/
def isContainer : Value → Bool
  | Value.scalar _ => false
  | Value.sequence _ => true
  | Value.mapping _ => true

mutual
/-- The number of tree nodes reachable from a node by descending only
through containers whose paths are in the expansion set — the
materialization bound stated by the spec (section 8). -/
def reachCount (v : Value) (path : NodePath) (es : ExpansionState) : Nat :=
  1 + (if isContainer v = true ∧ path ∈ es.paths then
        match v with
        | Value.scalar _ => 0
        | Value.sequence xs => reachSeqCount xs path es 0
        | Value.mapping xs => reachMapCount xs path es
      else 0)

/-- Reachable nodes below the children of a sequence node. -/
def reachSeqCount (xs : List Value) (path : NodePath) (es : ExpansionState) (i : Nat) : Nat :=
  match xs with
  | [] => 0
  | x :: rest => reachCount x (path ++ [PathSeg.idx i]) es + reachSeqCount rest path es (i + 1)

/-- Reachable nodes below the children of a mapping node. -/
def reachMapCount (xs : List (String × Value)) (path : NodePath) (es : ExpansionState) : Nat :=
  match xs with
  | [] => 0
  | kv :: rest => reachCount kv.2 (path ++ [PathSeg.key kv.1]) es + reachMapCount rest path es
end

/-- Reachable nodes from the roots of a snapshot. -/
def snapshotReachCount (s : List (String × Value)) (es : ExpansionState) : Nat :=
  match s with
  | [] => 0
  | (n, v) :: rest => reachCount v [PathSeg.key n] es + snapshotReachCount rest es

/-- The child lines a node contributes when its path is expanded. -/
def childLinesOf (v : Value) (path : NodePath) (es : ExpansionState) (diff : DiffResult)
    (inh : Option DiffKind) (depth width : Nat) : List TreeLine :=
  match v with
  | Value.scalar _ => []
  | Value.sequence xs => renderSeq xs path es diff inh depth width 0
  | Value.mapping xs => renderMap xs path es diff inh depth width

theorem value_sizeOf_pos (v : Value) : 0 < sizeOf v := by
  cases v <;> simp_arith

theorem renderSeq_length (es : ExpansionState) (diff : DiffResult) (width : Nat)
    (xs : List Value)
    (IH : ∀ x ∈ xs, ∀ name path inh depth,
      (renderValue name x path es diff inh depth width).length = reachCount x path es) :
    ∀ path inh depth i,
      (renderSeq xs path es diff inh depth width i).length = reachSeqCount xs path es i := by
  induction xs with
  | nil => intro path inh depth i; simp [renderSeq, reachSeqCount]
  | cons x rest ih =>
    intro path inh depth i
    have hx := IH x (by simp)
    have hrest := ih (fun y hy => IH y (by simp [hy]))
    simp [renderSeq, reachSeqCount, List.length_append, hx, hrest]

theorem renderMap_length (es : ExpansionState) (diff : DiffResult) (width : Nat)
    (xs : List (String × Value))
    (IH : ∀ kv ∈ xs, ∀ name path inh depth,
      (renderValue name kv.2 path es diff inh depth width).length = reachCount kv.2 path es) :
    ∀ path inh depth,
      (renderMap xs path es diff inh depth width).length = reachMapCount xs path es := by
  induction xs with
  | nil => intro path inh depth; simp [renderMap, reachMapCount]
  | cons kv rest ih =>
    intro path inh depth
    have hx := IH kv (by simp)
    have hrest := ih (fun y hy => IH y (by simp [hy]))
    simp [renderMap, reachMapCount, List.length_append, hx, hrest]

theorem renderValue_length_aux :
    ∀ n v, sizeOf v ≤ n → ∀ name path (es : ExpansionState) diff inh depth width,
      (renderValue name v path es diff inh depth width).length = reachCount v path es := by
  intro n
  induction n with
  | zero =>
    intro v hsz
    exact absurd hsz (by have := value_sizeOf_pos v; omega)
  | succ n ih =>
    intro v hsz name path es diff inh depth width
    cases v with
    | scalar t =>
      by_cases hmem : path ∈ es.paths <;>
        simp [renderValue, reachCount, isContainer, hmem]
    | sequence xs =>
      have hsub : ∀ x ∈ xs, sizeOf x ≤ n := by
        intro x hx
        have h1 := List.sizeOf_lt_of_mem hx
        have h2 : sizeOf (Value.sequence xs) = 1 + sizeOf xs := by simp
        omega
      have IH : ∀ x ∈ xs, ∀ name path inh depth,
          (renderValue name x path es diff inh depth width).length = reachCount x path es :=
        fun x hx name path inh depth => ih x (hsub x hx) name path es diff inh depth width
      by_cases hmem : path ∈ es.paths
      · simp [renderValue, reachCount, isContainer, hmem,
          renderSeq_length es diff width xs IH path (childInherit (effectiveDiff diff path inh)) (depth + 1) 0]
        omega
      · simp [renderValue, reachCount, isContainer, hmem]
    | mapping xs =>
      have hsub : ∀ kv ∈ xs, sizeOf kv.2 ≤ n := by
        intro kv hkv
        have h1 := List.sizeOf_lt_of_mem hkv
        have h2 : sizeOf (Value.mapping xs) = 1 + sizeOf xs := by simp
        have h3 : sizeOf kv.2 < sizeOf kv := by
          obtain ⟨k, v⟩ := kv
          simp_arith
        omega
      have IH : ∀ kv ∈ xs, ∀ name path inh depth,
          (renderValue name kv.2 path es diff inh depth width).length = reachCount kv.2 path es :=
        fun kv hkv name path inh depth => ih kv.2 (hsub kv hkv) name path es diff inh depth width
      by_cases hmem : path ∈ es.paths
      · simp [renderValue, reachCount, isContainer, hmem,
          renderMap_length es diff width xs IH path (childInherit (effectiveDiff diff path inh)) (depth + 1)]
        omega
      · simp [renderValue, reachCount, isContainer, hmem]

theorem renderValue_length (name : String) (v : Value) (path : NodePath) (es : ExpansionState)
    (diff : DiffResult) (inh : Option DiffKind) (depth width : Nat) :
    (renderValue name v path es diff inh depth width).length = reachCount v path es :=
  renderValue_length_aux (sizeOf v) v (Nat.le_refl _) name path es diff inh depth width

theorem renderSnapshot_length (s : List (String × Value)) (es : ExpansionState)
    (diff : DiffResult) (width : Nat) :
    (renderSnapshot s es diff width).length = snapshotReachCount s es := by
  induction s with
  | nil => simp [renderSnapshot, snapshotReachCount]
  | cons kv rest ih =>
    obtain ⟨nm, v⟩ := kv
    simp [renderSnapshot, snapshotReachCount, List.length_append, ih, renderValue_length]

/-- C2: for the first snapshot (current state index 0), the computed
DiffResult has an empty change map, so every path is classified
Unchanged. -/
theorem first_state_diff_empty (app : App) (h : app.current_state = 0) :
    (compute_diff_for_state app).changes = [] ∧
    ∀ p : NodePath, lookupChange (compute_diff_for_state app).changes p = none := by
  constructor
  · simp [compute_diff_for_state, h]
  · intro p
    simp [compute_diff_for_state, h, lookupChange]

theorem first_state_diff_empty_witness :
    (compute_diff_for_state (App.new ⟨[⟨[]⟩]⟩ false)).changes = [] ∧
    ∀ p : NodePath, lookupChange (compute_diff_for_state (App.new ⟨[⟨[]⟩]⟩ false)).changes p = none :=
  first_state_diff_empty (App.new ⟨[⟨[]⟩]⟩ false) rfl

/-- C4: materialization never produces more TreeLines than there are nodes
reachable from the roots through expanded containers, and a node's children
are materialized, at depth+1, immediately after its own line iff its path
is in the expansion set; otherwise only the node's own line is produced. -/
theorem materialization_bound (app : App) (diff : DiffResult) (w : Nat) :
    ((build_tree_lines app diff w).length ≤ snapshotReachCount (currentValues app) app.expansion) ∧
    (∀ name v path (es : ExpansionState) d inh depth width, path ∉ es.paths →
      renderValue name v path es d inh depth width
        = [TreeLine.mk path depth (isExpandable v) (effectiveDiff d path inh) (buildSpans name v depth width)]) ∧
    (∀ name v path (es : ExpansionState) d inh depth width, path ∈ es.paths →
      renderValue name v path es d inh depth width
        = TreeLine.mk path depth (isExpandable v) (effectiveDiff d path inh) (buildSpans name v depth width)
            :: childLinesOf v path es d (childInherit (effectiveDiff d path inh)) (depth + 1) width) := by
  refine ⟨?_, ?_, ?_⟩
  · unfold build_tree_lines currentValues
    cases app.trace.states[app.current_state]? with
    | none => simp
    | some st => simp [renderSnapshot_length]
  · intro name v path es d inh depth width hmem
    cases v <;> simp [renderValue, childLinesOf, hmem]
  · intro name v path es d inh depth width hmem
    cases v <;> simp [renderValue, childLinesOf, hmem]

theorem materialization_bound_witness :
    ((build_tree_lines (App.new ⟨[⟨[("x", Value.scalar "1")]⟩]⟩ false) ⟨[]⟩ 80).length
        ≤ snapshotReachCount (currentValues (App.new ⟨[⟨[("x", Value.scalar "1")]⟩]⟩ false))
            (App.new ⟨[⟨[("x", Value.scalar "1")]⟩]⟩ false).expansion) ∧
    (renderValue "y" (Value.sequence [Value.scalar "0"]) [PathSeg.key "y"] ⟨[]⟩ ⟨[]⟩ none 0 80
      = [TreeLine.mk [PathSeg.key "y"] 0 (isExpandable (Value.sequence [Value.scalar "0"]))
          (effectiveDiff ⟨[]⟩ [PathSeg.key "y"] none)
          (buildSpans "y" (Value.sequence [Value.scalar "0"]) 0 80)]) ∧
    (renderValue "y" (Value.sequence [Value.scalar "0"]) [PathSeg.key "y"] ⟨[[PathSeg.key "y"]]⟩ ⟨[]⟩ none 0 80
      = TreeLine.mk [PathSeg.key "y"] 0 (isExpandable (Value.sequence [Value.scalar "0"]))
          (effectiveDiff ⟨[]⟩ [PathSeg.key "y"] none)
          (buildSpans "y" (Value.sequence [Value.scalar "0"]) 0 80)
          :: childLinesOf (Value.sequence [Value.scalar "0"]) [PathSeg.key "y"] ⟨[[PathSeg.key "y"]]⟩ ⟨[]⟩
              (childInherit (effectiveDiff ⟨[]⟩ [PathSeg.key "y"] none)) 1 80) :=
  ⟨(materialization_bound (App.new ⟨[⟨[("x", Value.scalar "1")]⟩]⟩ false) ⟨[]⟩ 80).1,
   (materialization_bound (App.new ⟨[⟨[("x", Value.scalar "1")]⟩]⟩ false) ⟨[]⟩ 80).2.1
     "y" (Value.sequence [Value.scalar "0"]) [PathSeg.key "y"] ⟨[]⟩ ⟨[]⟩ none 0 80 (by decide),
   (materialization_bound (App.new ⟨[⟨[("x", Value.scalar "1")]⟩]⟩ false) ⟨[]⟩ 80).2.2
     "y" (Value.sequence [Value.scalar "0"]) [PathSeg.key "y"] ⟨[[PathSeg.key "y"]]⟩ ⟨[]⟩ none 0 80 (by decide)⟩

/-- C5 counterexample: with 100 lines, viewport height 20, the cursor at
99 and the scroll offset at 0 (reachable with the End key), the loop's
adjustment sets the scroll offset to 82, which exceeds
line_count - viewport_height = 80: the scroll offset is not clamped into
[0, line_count - viewport_height]. -/
theorem scroll_not_clamped_counterexample :
    (loop_clamp ⟨⟨[]⟩, 0, false, ⟨[]⟩, 99, 0, false⟩ 100 20).scroll_offset = 82 ∧
    ¬ ((loop_clamp ⟨⟨[]⟩, 0, false, ⟨[]⟩, 99, 0, false⟩ 100 20).scroll_offset ≤ 100 - 20) := by
  decide

/-- C5 amended: after the per-iteration adjustment of the event loop, when
at least one line exists the cursor lies in [0, line_count); the scroll
offset is not clamped to line_count - viewport_height, but it never
exceeds the cursor (and hence also stays below line_count). -/
theorem loop_clamp_bounds (app : App) (lc vh : Nat) (h : 0 < lc) :
    (loop_clamp app lc vh).cursor < lc ∧
    (loop_clamp app lc vh).scroll_offset ≤ (loop_clamp app lc vh).cursor := by
  unfold loop_clamp App.ensure_cursor_visible
  dsimp only
  split_ifs <;> simp_all <;> omega

theorem loop_clamp_bounds_witness :
    (loop_clamp ⟨⟨[]⟩, 0, false, ⟨[]⟩, 99, 0, false⟩ 100 20).cursor < 100 ∧
    (loop_clamp ⟨⟨[]⟩, 0, false, ⟨[]⟩, 99, 0, false⟩ 100 20).scroll_offset ≤
      (loop_clamp ⟨⟨[]⟩, 0, false, ⟨[]⟩, 99, 0, false⟩ 100 20).cursor :=
  loop_clamp_bounds ⟨⟨[]⟩, 0, false, ⟨[]⟩, 99, 0, false⟩ 100 20 (by decide)

/-- C6: PrevState at snapshot index 0 and NextState at the last snapshot
are no-ops: the whole session state is returned unchanged. -/
theorem nav_past_ends_noop (app : App) (tl : List TreeLine) (lc vh : Nat) :
    (app.current_state = 0 → handleKey app tl lc vh Command.prevState = app) ∧
    (app.trace.states.length ≤ app.current_state + 1 →
      handleKey app tl lc vh Command.nextState = app) := by
  constructor
  · intro h
    simp [handleKey, h]
  · intro h
    have hlt : ¬ (app.current_state + 1 < app.trace.states.length) := by omega
    simp [handleKey, hlt]

theorem nav_past_ends_noop_witness :
    (handleKey (App.new ⟨[⟨[]⟩]⟩ false) [] 0 0 Command.prevState = App.new ⟨[⟨[]⟩]⟩ false) ∧
    (handleKey (App.new ⟨[⟨[]⟩]⟩ false) [] 0 0 Command.nextState = App.new ⟨[⟨[]⟩]⟩ false) :=
  ⟨(nav_past_ends_noop (App.new ⟨[⟨[]⟩]⟩ false) [] 0 0).1 rfl,
   (nav_past_ends_noop (App.new ⟨[⟨[]⟩]⟩ false) [] 0 0).2 (by decide)⟩

/-- C7: PageDown advances the cursor by viewport_height - 2, capped at
line_count - 1; in particular from cursor 0 with viewport height 20 and
100 lines it moves the cursor to 18. -/
theorem page_down_step :
    (∀ (app : App) (tl : List TreeLine) (lc vh : Nat),
      handleKey app tl lc vh Command.pageDown
        = { app with cursor := min (app.cursor + (vh - 2)) (lc - 1) }) ∧
    (handleKey (App.new ⟨[⟨[]⟩]⟩ false) [] 100 20 Command.pageDown).cursor = 18 := by
  constructor
  · intro app tl lc vh
    rfl
  · decide

/-- C8: ToggleAtCursor on a non-expandable line leaves the application
state, and hence the materialized line list, unchanged. -/
theorem toggle_scalar_noop (app : App) (tl : List TreeLine) (lc vh : Nat) (line : TreeLine)
    (h1 : tl[app.cursor]? = some line) (h2 : line.expandable = false) :
    handleKey app tl lc vh Command.toggleAtCursor = app ∧
    ∀ d w, build_tree_lines (handleKey app tl lc vh Command.toggleAtCursor) d w
      = build_tree_lines app d w := by
  have hstep : handleKey app tl lc vh Command.toggleAtCursor = app := by
    simp [handleKey, h1, h2]
  exact ⟨hstep, fun d w => by rw [hstep]⟩

theorem toggle_scalar_noop_witness :
    handleKey (App.new ⟨[⟨[("x", Value.scalar "1")]⟩]⟩ false)
        [TreeLine.mk [PathSeg.key "x"] 0 false DiffKind.unchanged []] 1 0 Command.toggleAtCursor
      = App.new ⟨[⟨[("x", Value.scalar "1")]⟩]⟩ false ∧
    ∀ d w, build_tree_lines
        (handleKey (App.new ⟨[⟨[("x", Value.scalar "1")]⟩]⟩ false)
          [TreeLine.mk [PathSeg.key "x"] 0 false DiffKind.unchanged []] 1 0 Command.toggleAtCursor) d w
      = build_tree_lines (App.new ⟨[⟨[("x", Value.scalar "1")]⟩]⟩ false) d w :=
  toggle_scalar_noop (App.new ⟨[⟨[("x", Value.scalar "1")]⟩]⟩ false)
    [TreeLine.mk [PathSeg.key "x"] 0 false DiffKind.unchanged []] 1 0
    (TreeLine.mk [PathSeg.key "x"] 0 false DiffKind.unchanged []) rfl rfl

/-- C9: when a line's diff classification is Added, Removed or Modified,
the diff color is the rendered foreground of every one of its spans; for an
Unchanged line each span keeps its semantic color; the semantic style tags
themselves stay untouched on the TreeLine. -/
theorem diff_color_overrides (line : TreeLine) (sel : Bool) (i : Nat) (s : StyledSpan)
    (h : line.spans[i]? = some s) :
    ∃ r : RSpan, (styledSpans line sel)[i]? = some r ∧ r.text = s.text ∧
      (line.diff = DiffKind.unchanged → r.fg = s.style.toColor) ∧
      (line.diff ≠ DiffKind.unchanged →
        r.fg = diffColor line.diff ∧ (diffColor line.diff).isSome = true) := by
  refine ⟨⟨s.text,
      if (diffColor line.diff).isSome then diffColor line.diff else s.style.toColor,
      if sel then some Color.darkGray else none⟩, ?_, rfl, ?_, ?_⟩
  · simp [styledSpans, List.getElem?_map, h]
  · intro hu
    simp [hu, diffColor]
  · intro hne
    cases hd : line.diff <;> simp_all [diffColor]

theorem diff_color_overrides_witness :
    ∃ r : RSpan,
      (styledSpans (TreeLine.mk [] 0 false DiffKind.added [⟨"x", SemStyle.keyword⟩]) false)[0]?
          = some r ∧
      r.text = (⟨"x", SemStyle.keyword⟩ : StyledSpan).text ∧
      ((TreeLine.mk [] 0 false DiffKind.added [⟨"x", SemStyle.keyword⟩]).diff = DiffKind.unchanged →
        r.fg = (⟨"x", SemStyle.keyword⟩ : StyledSpan).style.toColor) ∧
      ((TreeLine.mk [] 0 false DiffKind.added [⟨"x", SemStyle.keyword⟩]).diff ≠ DiffKind.unchanged →
        r.fg = diffColor (TreeLine.mk [] 0 false DiffKind.added [⟨"x", SemStyle.keyword⟩]).diff ∧
        (diffColor (TreeLine.mk [] 0 false DiffKind.added [⟨"x", SemStyle.keyword⟩]).diff).isSome = true) :=
  diff_color_overrides (TreeLine.mk [] 0 false DiffKind.added [⟨"x", SemStyle.keyword⟩]) false 0
    ⟨"x", SemStyle.keyword⟩ rfl

/-- C10: every accepted snapshot navigation resets cursor and scroll
offset to 0, whether or not auto-expand is enabled (auto-expansion touches
only the expansion set). -/
theorem nav_resets_cursor_scroll (app : App) (tl : List TreeLine) (lc vh : Nat) :
    (0 < app.current_state →
      (handleKey app tl lc vh Command.prevState).cursor = 0 ∧
      (handleKey app tl lc vh Command.prevState).scroll_offset = 0) ∧
    (app.current_state + 1 < app.trace.states.length →
      (handleKey app tl lc vh Command.nextState).cursor = 0 ∧
      (handleKey app tl lc vh Command.nextState).scroll_offset = 0) := by
  constructor
  · intro h
    simp only [handleKey, h, if_pos]
    split <;> simp [auto_expand_changes]
  · intro h
    simp only [handleKey, h, if_pos]
    split <;> simp [auto_expand_changes]

theorem nav_resets_cursor_scroll_witness :
    ((handleKey ⟨⟨[⟨[]⟩, ⟨[]⟩, ⟨[]⟩]⟩, 1, false, ⟨[]⟩, 5, 3, true⟩ [] 0 0 Command.prevState).cursor = 0 ∧
     (handleKey ⟨⟨[⟨[]⟩, ⟨[]⟩, ⟨[]⟩]⟩, 1, false, ⟨[]⟩, 5, 3, true⟩ [] 0 0 Command.prevState).scroll_offset = 0) ∧
    ((handleKey ⟨⟨[⟨[]⟩, ⟨[]⟩, ⟨[]⟩]⟩, 1, false, ⟨[]⟩, 5, 3, true⟩ [] 0 0 Command.nextState).cursor = 0 ∧
     (handleKey ⟨⟨[⟨[]⟩, ⟨[]⟩, ⟨[]⟩]⟩, 1, false, ⟨[]⟩, 5, 3, true⟩ [] 0 0 Command.nextState).scroll_offset = 0) :=
  ⟨(nav_resets_cursor_scroll ⟨⟨[⟨[]⟩, ⟨[]⟩, ⟨[]⟩]⟩, 1, false, ⟨[]⟩, 5, 3, true⟩ [] 0 0).1 (by decide),
   (nav_resets_cursor_scroll ⟨⟨[⟨[]⟩, ⟨[]⟩, ⟨[]⟩]⟩, 1, false, ⟨[]⟩, 5, 3, true⟩ [] 0 0).2 (by decide)⟩

theorem lookupVal_mem {xs : List (String × Value)} {k : String} {v : Value}
    (h : lookupVal xs k = some v) : (k, v) ∈ xs := by
  induction xs with
  | nil => simp [lookupVal] at h
  | cons kv rest ih =>
    obtain ⟨k0, v0⟩ := kv
    by_cases he : k0 = k
    · subst he
      simp [lookupVal] at h
      simp [h]
    · simp [lookupVal, he] at h
      simp [ih h]

theorem lookupVal_isSome_iff {xs : List (String × Value)} {k : String} :
    (lookupVal xs k).isSome = true ↔ ∃ v, (k, v) ∈ xs := by
  induction xs with
  | nil => simp [lookupVal]
  | cons kv rest ih =>
    obtain ⟨k0, v0⟩ := kv
    by_cases he : k0 = k
    · subst he
      simp [lookupVal]
    · simp only [lookupVal, if_neg he, ih]
      constructor
      · rintro ⟨v, hv⟩
        exact ⟨v, List.mem_cons_of_mem _ hv⟩
      · rintro ⟨v, hv⟩
        rcases List.mem_cons.mp hv with h0 | h0
        · exact absurd (congrArg Prod.fst h0).symm he
        · exact ⟨v, h0⟩

theorem lookupVal_eq_none_iff {xs : List (String × Value)} {k : String} :
    lookupVal xs k = none ↔ ∀ v, (k, v) ∉ xs := by
  rw [← Option.not_isSome_iff_eq_none]
  simp [lookupVal_isSome_iff]

theorem mem_lookupVal_of_nodup {xs : List (String × Value)} {k : String} {v : Value}
    (hnd : nodupKeysB (xs.map Prod.fst) = true) (h : (k, v) ∈ xs) :
    lookupVal xs k = some v := by
  induction xs with
  | nil => simp at h
  | cons kv rest ih =>
    obtain ⟨k0, v0⟩ := kv
    simp only [List.map_cons, nodupKeysB, Bool.and_eq_true] at hnd
    rcases List.mem_cons.mp h with h0 | h0
    · cases h0
      simp [lookupVal]
    · have hk0 : k0 ≠ k := by
        intro he
        subst he
        have hmem : k0 ∈ rest.map Prod.fst := by
          exact List.mem_map_of_mem Prod.fst h0
        have hnot : k0 ∉ rest.map Prod.fst := by
          simpa using hnd.1
        exact hnot hmem
      simp [lookupVal, hk0, ih hnd.2 h0]

theorem mem_removedTail {path p : NodePath} {k : DiffKind} {i : Nat} {xs : List Value} :
    (p, k) ∈ removedTail path i xs ↔
      ∃ j, j < xs.length ∧ p = path ++ [PathSeg.idx (i + j)] ∧ k = DiffKind.removed := by
  simp only [removedTail, List.mem_map, List.mem_range, Prod.mk.injEq]
  constructor
  · rintro ⟨j, hj, hp, hk⟩
    exact ⟨j, hj, hp.symm, hk.symm⟩
  · rintro ⟨j, hj, hp, hk⟩
    exact ⟨j, hj, hp.symm, hk.symm⟩

theorem mem_addedTail {path p : NodePath} {k : DiffKind} {i : Nat} {ys : List Value} :
    (p, k) ∈ addedTail path i ys ↔
      ∃ j, j < ys.length ∧ p = path ++ [PathSeg.idx (i + j)] ∧ k = DiffKind.added := by
  simp only [addedTail, List.mem_map, List.mem_range, Prod.mk.injEq]
  constructor
  · rintro ⟨j, hj, hp, hk⟩
    exact ⟨j, hj, hp.symm, hk.symm⟩
  · rintro ⟨j, hj, hp, hk⟩
    exact ⟨j, hj, hp.symm, hk.symm⟩

theorem mem_diffMapRemoved {path p : NodePath} {k : DiffKind} {xs ys : List (String × Value)} :
    (p, k) ∈ diffMapRemoved path xs ys ↔
      ∃ kk pv, (kk, pv) ∈ xs ∧ lookupVal ys kk = none ∧
        p = path ++ [PathSeg.key kk] ∧ k = DiffKind.removed := by
  simp only [diffMapRemoved, List.mem_filterMap]
  constructor
  · rintro ⟨⟨kk, pv⟩, hmem, hval⟩
    by_cases hs : (lookupVal ys kk).isSome
    · simp [hs] at hval
    · rw [if_neg hs] at hval
      refine ⟨kk, pv, hmem, ?_, ?_, ?_⟩
      · exact Option.not_isSome_iff_eq_none.mp hs
      · exact (Prod.mk.injEq .. ▸ Option.some.injEq .. ▸ hval).1.symm
      · exact (Prod.mk.injEq .. ▸ Option.some.injEq .. ▸ hval).2.symm
  · rintro ⟨kk, pv, hmem, hnone, hp, hk⟩
    refine ⟨(kk, pv), hmem, ?_⟩
    rw [if_neg (by simp [hnone])]
    simp [hp, hk]

theorem mem_diffMapCur {path p : NodePath} {k : DiffKind} {xs : List (String × Value)} :
    ∀ {ys : List (String × Value)},
      ((p, k) ∈ diffMapCur path xs ys ↔
        ∃ kk cv, (kk, cv) ∈ ys ∧
          ((lookupVal xs kk = none ∧ p = path ++ [PathSeg.key kk] ∧ k = DiffKind.added) ∨
           (∃ pv, lookupVal xs kk = some pv ∧ (p, k) ∈ diffNode (path ++ [PathSeg.key kk]) pv cv))) := by
  intro ys
  induction ys with
  | nil => simp [diffMapCur]
  | cons kv rest ih =>
    obtain ⟨kk0, cv0⟩ := kv
    rw [diffMapCur]
    rw [List.mem_append]
    constructor
    · rintro (hhead | htail)
      · cases hval : lookupVal xs kk0 with
        | some pv =>
          rw [hval] at hhead
          exact ⟨kk0, cv0, List.mem_cons_self .., Or.inr ⟨pv, hval, hhead⟩⟩
        | none =>
          rw [hval] at hhead
          simp only [List.mem_singleton, Prod.mk.injEq] at hhead
          exact ⟨kk0, cv0, List.mem_cons_self .., Or.inl ⟨hval, hhead.1, hhead.2⟩⟩
      · obtain ⟨kk, cv, hmem, hrest⟩ := ih.mp htail
        exact ⟨kk, cv, List.mem_cons_of_mem _ hmem, hrest⟩
    · rintro ⟨kk, cv, hmem, hcase⟩
      rcases List.mem_cons.mp hmem with h0 | h0
      · obtain ⟨hk1, hk2⟩ := Prod.mk.injEq .. ▸ h0
        subst hk1
        subst hk2
        rcases hcase with ⟨hnone, hp, hk⟩ | ⟨pv, hsome, hmemn⟩
        · rw [hnone] at *
          left
          rw [hnone]
          simp [hp, hk]
        · left
          rw [hsome]
          exact hmemn
      · exact Or.inr (ih.mpr ⟨kk, cv, h0, hcase⟩)

theorem mem_diffSeq {path p : NodePath} {k : DiffKind} :
    ∀ {ys xs : List Value} {i : Nat},
      ((p, k) ∈ diffSeq path i xs ys ↔
        (∃ j x y, xs[j]? = some x ∧ ys[j]? = some y ∧
          (p, k) ∈ diffNode (path ++ [PathSeg.idx (i + j)]) x y) ∨
        (∃ j, xs.length ≤ j ∧ j < ys.length ∧ p = path ++ [PathSeg.idx (i + j)] ∧ k = DiffKind.added) ∨
        (∃ j, ys.length ≤ j ∧ j < xs.length ∧ p = path ++ [PathSeg.idx (i + j)] ∧ k = DiffKind.removed)) := by
  intro ys
  induction ys with
  | nil =>
    intro xs i
    rw [show diffSeq path i xs [] = removedTail path i xs by cases xs <;> rfl]
    rw [mem_removedTail]
    constructor
    · rintro ⟨j, hj, hp, hk⟩
      exact Or.inr (Or.inr ⟨j, Nat.zero_le j, hj, hp, hk⟩)
    · rintro (⟨j, x, y, _, hy, _⟩ | ⟨j, _, hj, _, _⟩ | ⟨j, _, hj, hp, hk⟩)
      · simp at hy
      · simp at hj
      · exact ⟨j, hj, hp, hk⟩
  | cons y ys ih =>
    intro xs i
    cases xs with
    | nil =>
      rw [show diffSeq path i [] (y :: ys) = addedTail path i (y :: ys) from rfl]
      rw [mem_addedTail]
      constructor
      · rintro ⟨j, hj, hp, hk⟩
        exact Or.inr (Or.inl ⟨j, Nat.zero_le j, hj, hp, hk⟩)
      · rintro (⟨j, x, _, hx, _, _⟩ | ⟨j, _, hj, hp, hk⟩ | ⟨j, _, hj, _, _⟩)
        · simp at hx
        · exact ⟨j, hj, hp, hk⟩
        · simp at hj
    | cons x xs =>
      rw [show diffSeq path i (x :: xs) (y :: ys)
            = diffNode (path ++ [PathSeg.idx i]) x y ++ diffSeq path (i + 1) xs ys from rfl]
      rw [List.mem_append, ih]
      constructor
      · rintro (hhead | ⟨j, x', y', h1, h2, h3⟩ | ⟨j, h1, h2, h3, h4⟩ | ⟨j, h1, h2, h3, h4⟩)
        · exact Or.inl ⟨0, x, y, by simp, by simp, by simpa using hhead⟩
        · refine Or.inl ⟨j + 1, x', y', by simpa using h1, by simpa using h2, ?_⟩
          have hidx : i + 1 + j = i + (j + 1) := by omega
          rw [hidx] at h3
          exact h3
        · refine Or.inr (Or.inl ⟨j + 1, by simpa using Nat.succ_le_succ h1, by simpa using Nat.succ_lt_succ h2, ?_, h4⟩)
          have hidx : i + 1 + j = i + (j + 1) := by omega
          rw [hidx] at h3
          exact h3
        · refine Or.inr (Or.inr ⟨j + 1, by simpa using Nat.succ_le_succ h1, by simpa using Nat.succ_lt_succ h2, ?_, h4⟩)
          have hidx : i + 1 + j = i + (j + 1) := by omega
          rw [hidx] at h3
          exact h3
      · rintro (⟨j, x', y', h1, h2, h3⟩ | ⟨j, h1, h2, h3, h4⟩ | ⟨j, h1, h2, h3, h4⟩)
        · cases j with
          | zero =>
            simp only [List.getElem?_cons_zero, Option.some.injEq] at h1 h2
            subst h1
            subst h2
            exact Or.inl (by simpa using h3)
          | succ j =>
            simp only [List.getElem?_cons_succ] at h1 h2
            refine Or.inr (Or.inl ⟨j, x', y', h1, h2, ?_⟩)
            have hidx : i + (j + 1) = i + 1 + j := by omega
            rw [hidx] at h3
            exact h3
        · cases j with
          | zero => simp at h1
          | succ j =>
            refine Or.inr (Or.inr (Or.inl ⟨j, by simpa using h1, by simpa using h2, ?_, h4⟩))
            have hidx : i + (j + 1) = i + 1 + j := by omega
            rw [hidx] at h3
            exact h3
        · cases j with
          | zero => simp at h1
          | succ j =>
            refine Or.inr (Or.inr (Or.inr ⟨j, by simpa using h1, by simpa using h2, ?_, h4⟩))
            have hidx : i + (j + 1) = i + 1 + j := by omega
            rw [hidx] at h3
            exact h3

theorem wfValues_mem {xs : List Value} (h : wfValues xs = true) {x : Value} (hx : x ∈ xs) :
    wfValue x = true := by
  induction xs with
  | nil => simp at hx
  | cons x0 rest ih =>
    simp only [wfValues, Bool.and_eq_true] at h
    rcases List.mem_cons.mp hx with h0 | h0
    · subst h0
      exact h.1
    · exact ih h.2 h0

theorem wfEntries_mem {xs : List (String × Value)} (h : wfEntries xs = true)
    {kv : String × Value} (hkv : kv ∈ xs) : wfValue kv.2 = true := by
  induction xs with
  | nil => simp at hkv
  | cons kv0 rest ih =>
    simp only [wfEntries, Bool.and_eq_true] at h
    rcases List.mem_cons.mp hkv with h0 | h0
    · subst h0
      exact h.1
    · exact ih h.2 h0

theorem sizeOf_snd_lt {kv : String × Value} {xs : List (String × Value)} (h : kv ∈ xs) :
    sizeOf kv.2 < sizeOf xs := by
  have h1 := List.sizeOf_lt_of_mem h
  obtain ⟨k, v⟩ := kv
  simp only [Prod.mk.sizeOf_spec] at h1
  simp only []
  omega

theorem sizeOf_lookupVal {xs : List (String × Value)} {k : String} {v : Value}
    (h : lookupVal xs k = some v) : sizeOf v < sizeOf xs :=
  sizeOf_snd_lt (lookupVal_mem h)

theorem sizeOf_getElem? {xs : List Value} {j : Nat} {x : Value} (h : xs[j]? = some x) :
    sizeOf x < sizeOf xs :=
  List.sizeOf_lt_of_mem (List.getElem?_mem h)

/-- The direction swap on change classifications: Added and Removed
exchange, Modified and Unchanged are fixed. -/
def swapKind : DiffKind → DiffKind
  | DiffKind.added => DiffKind.removed
  | DiffKind.removed => DiffKind.added
  | DiffKind.modified => DiffKind.modified
  | DiffKind.unchanged => DiffKind.unchanged

theorem diffNode_swap_aux :
    ∀ n, ∀ pv cv, sizeOf pv + sizeOf cv ≤ n →
      wfValue pv = true → wfValue cv = true →
      ∀ path p k, (p, k) ∈ diffNode path pv cv →
        (p, swapKind k) ∈ diffNode path cv pv := by
  intro n
  induction n with
  | zero =>
    intro pv cv h
    exact absurd h (by
      have h1 := value_sizeOf_pos pv
      have h2 := value_sizeOf_pos cv
      omega)
  | succ n ih =>
    intro pv cv hsz hwp hwc path p k hmem
    cases pv with
    | scalar a =>
      cases cv with
      | scalar b =>
        by_cases hab : a = b
        · subst hab
          simp [diffNode] at hmem
        · simp only [diffNode, if_neg hab, List.mem_singleton, Prod.mk.injEq] at hmem
          simp [diffNode, Ne.symm hab, hmem.1, hmem.2, swapKind]
      | sequence ys =>
        simp only [diffNode, List.mem_singleton, Prod.mk.injEq] at hmem
        simp [diffNode, hmem.1, hmem.2, swapKind]
      | mapping ys =>
        simp only [diffNode, List.mem_singleton, Prod.mk.injEq] at hmem
        simp [diffNode, hmem.1, hmem.2, swapKind]
    | sequence xs =>
      cases cv with
      | scalar b =>
        simp only [diffNode, List.mem_singleton, Prod.mk.injEq] at hmem
        simp [diffNode, hmem.1, hmem.2, swapKind]
      | mapping ys =>
        simp only [diffNode, List.mem_singleton, Prod.mk.injEq] at hmem
        simp [diffNode, hmem.1, hmem.2, swapKind]
      | sequence ys =>
        rw [show diffNode path (Value.sequence xs) (Value.sequence ys) = diffSeq path 0 xs ys from rfl] at hmem
        rw [show diffNode path (Value.sequence ys) (Value.sequence xs) = diffSeq path 0 ys xs from rfl]
        rw [mem_diffSeq] at hmem
        rw [mem_diffSeq]
        have hxsz : sizeOf (Value.sequence xs) = 1 + sizeOf xs := by simp
        have hysz : sizeOf (Value.sequence ys) = 1 + sizeOf ys := by simp
        have hwxs : wfValues xs = true := by simpa [wfValue] using hwp
        have hwys : wfValues ys = true := by simpa [wfValue] using hwc
        rcases hmem with ⟨j, x, y, h1, h2, h3⟩ | ⟨j, h1, h2, h3, h4⟩ | ⟨j, h1, h2, h3, h4⟩
        · have hx := sizeOf_getElem? h1
          have hy := sizeOf_getElem? h2
          have hrec := ih x y (by omega) (wfValues_mem hwxs (List.getElem?_mem h1))
            (wfValues_mem hwys (List.getElem?_mem h2))
            (path ++ [PathSeg.idx (0 + j)]) p k h3
          exact Or.inl ⟨j, y, x, h2, h1, hrec⟩
        · exact Or.inr (Or.inr ⟨j, h1, h2, h3, by simp [h4, swapKind]⟩)
        · exact Or.inr (Or.inl ⟨j, h1, h2, h3, by simp [h4, swapKind]⟩)
    | mapping xs =>
      cases cv with
      | scalar b =>
        simp only [diffNode, List.mem_singleton, Prod.mk.injEq] at hmem
        simp [diffNode, hmem.1, hmem.2, swapKind]
      | sequence ys =>
        simp only [diffNode, List.mem_singleton, Prod.mk.injEq] at hmem
        simp [diffNode, hmem.1, hmem.2, swapKind]
      | mapping ys =>
        rw [show diffNode path (Value.mapping xs) (Value.mapping ys)
              = diffMapCur path xs ys ++ diffMapRemoved path xs ys from rfl] at hmem
        rw [show diffNode path (Value.mapping ys) (Value.mapping xs)
              = diffMapCur path ys xs ++ diffMapRemoved path ys xs from rfl]
        have hxsz : sizeOf (Value.mapping xs) = 1 + sizeOf xs := by simp
        have hysz : sizeOf (Value.mapping ys) = 1 + sizeOf ys := by simp
        have hwx : nodupKeysB (xs.map Prod.fst) = true ∧ wfEntries xs = true := by
          simpa [wfValue, Bool.and_eq_true] using hwp
        have hwy : nodupKeysB (ys.map Prod.fst) = true ∧ wfEntries ys = true := by
          simpa [wfValue, Bool.and_eq_true] using hwc
        rw [List.mem_append] at hmem
        rw [List.mem_append]
        rcases hmem with hcur | hrem
        · obtain ⟨kk, cv', hmemys, hcase⟩ := mem_diffMapCur.mp hcur
          rcases hcase with ⟨hnone, hp, hk⟩ | ⟨pv', hsome, hmemn⟩
          · refine Or.inr (mem_diffMapRemoved.mpr ⟨kk, cv', hmemys, hnone, hp, ?_⟩)
            simp [hk, swapKind]
          · have hpvmem : (kk, pv') ∈ xs := lookupVal_mem hsome
            have hszp : sizeOf pv' < sizeOf xs := sizeOf_lookupVal hsome
            have hszc : sizeOf cv' < sizeOf ys := sizeOf_snd_lt hmemys
            have hrec := ih pv' cv' (by omega) (wfEntries_mem hwx.2 hpvmem)
              (wfEntries_mem hwy.2 hmemys) (path ++ [PathSeg.key kk]) p k hmemn
            refine Or.inl (mem_diffMapCur.mpr ⟨kk, pv', hpvmem, Or.inr ⟨cv', ?_, hrec⟩⟩)
            exact mem_lookupVal_of_nodup hwy.1 hmemys
        · obtain ⟨kk, pv', hmemxs, hnone, hp, hk⟩ := mem_diffMapRemoved.mp hrem
          refine Or.inl (mem_diffMapCur.mpr ⟨kk, pv', hmemxs, Or.inl ⟨hnone, hp, ?_⟩⟩)
          simp [hk, swapKind]

theorem diffNode_swap {pv cv : Value} (hwp : wfValue pv = true) (hwc : wfValue cv = true)
    {path p : NodePath} {k : DiffKind} (h : (p, k) ∈ diffNode path pv cv) :
    (p, swapKind k) ∈ diffNode path cv pv :=
  diffNode_swap_aux (sizeOf pv + sizeOf cv) pv cv (Nat.le_refl _) hwp hwc path p k h

theorem computeDiff_swap_mem {prev cur : List (String × Value)}
    (hp : wfSnapshot prev = true) (hc : wfSnapshot cur = true) {p : NodePath} {k : DiffKind}
    (h : (p, k) ∈ (computeDiff prev cur).changes) :
    (p, swapKind k) ∈ (computeDiff cur prev).changes := by
  have hwx : nodupKeysB (prev.map Prod.fst) = true ∧ wfEntries prev = true := by
    simpa [wfSnapshot, Bool.and_eq_true] using hp
  have hwy : nodupKeysB (cur.map Prod.fst) = true ∧ wfEntries cur = true := by
    simpa [wfSnapshot, Bool.and_eq_true] using hc
  rw [show (computeDiff prev cur).changes
        = diffMapCur [] prev cur ++ diffMapRemoved [] prev cur from rfl] at h
  rw [show (computeDiff cur prev).changes
        = diffMapCur [] cur prev ++ diffMapRemoved [] cur prev from rfl]
  rw [List.mem_append] at h
  rw [List.mem_append]
  rcases h with hcur | hrem
  · obtain ⟨kk, cv', hmemys, hcase⟩ := mem_diffMapCur.mp hcur
    rcases hcase with ⟨hnone, hpp, hk⟩ | ⟨pv', hsome, hmemn⟩
    · refine Or.inr (mem_diffMapRemoved.mpr ⟨kk, cv', hmemys, hnone, hpp, ?_⟩)
      simp [hk, swapKind]
    · have hpvmem : (kk, pv') ∈ prev := lookupVal_mem hsome
      have hrec := diffNode_swap (wfEntries_mem hwx.2 hpvmem) (wfEntries_mem hwy.2 hmemys) hmemn
      refine Or.inl (mem_diffMapCur.mpr ⟨kk, pv', hpvmem, Or.inr ⟨cv', ?_, hrec⟩⟩)
      exact mem_lookupVal_of_nodup hwy.1 hmemys
  · obtain ⟨kk, pv', hmemxs, hnone, hpp, hk⟩ := mem_diffMapRemoved.mp hrem
    refine Or.inl (mem_diffMapCur.mpr ⟨kk, pv', hmemxs, Or.inl ⟨hnone, hpp, ?_⟩⟩)
    simp [hk, swapKind]

/-- C3: between well-formed snapshots, every path marked Added in
compute_diff(prev, cur) is marked Removed in compute_diff(cur, prev) and
vice versa, and the Modified paths are identical in both directions. -/
theorem diff_symmetry (prev cur : List (String × Value))
    (hp : wfSnapshot prev = true) (hc : wfSnapshot cur = true) (p : NodePath) :
    ((p, DiffKind.added) ∈ (computeDiff prev cur).changes ↔
      (p, DiffKind.removed) ∈ (computeDiff cur prev).changes) ∧
    ((p, DiffKind.removed) ∈ (computeDiff prev cur).changes ↔
      (p, DiffKind.added) ∈ (computeDiff cur prev).changes) ∧
    ((p, DiffKind.modified) ∈ (computeDiff prev cur).changes ↔
      (p, DiffKind.modified) ∈ (computeDiff cur prev).changes) := by
  refine ⟨⟨?_, ?_⟩, ⟨?_, ?_⟩, ⟨?_, ?_⟩⟩
  · intro h
    simpa [swapKind] using computeDiff_swap_mem hp hc h
  · intro h
    simpa [swapKind] using computeDiff_swap_mem hc hp h
  · intro h
    simpa [swapKind] using computeDiff_swap_mem hp hc h
  · intro h
    simpa [swapKind] using computeDiff_swap_mem hc hp h
  · intro h
    simpa [swapKind] using computeDiff_swap_mem hp hc h
  · intro h
    simpa [swapKind] using computeDiff_swap_mem hc hp h

theorem diff_symmetry_witness :
    (([PathSeg.key "y", PathSeg.idx 2], DiffKind.added) ∈
        (computeDiff
          [("x", Value.scalar "1"), ("y", Value.sequence [Value.scalar "1", Value.scalar "2"])]
          [("x", Value.scalar "2"), ("y", Value.sequence [Value.scalar "1", Value.scalar "2", Value.scalar "3"])]).changes ↔
      ([PathSeg.key "y", PathSeg.idx 2], DiffKind.removed) ∈
        (computeDiff
          [("x", Value.scalar "2"), ("y", Value.sequence [Value.scalar "1", Value.scalar "2", Value.scalar "3"])]
          [("x", Value.scalar "1"), ("y", Value.sequence [Value.scalar "1", Value.scalar "2"])]).changes) ∧
    (([PathSeg.key "y", PathSeg.idx 2], DiffKind.removed) ∈
        (computeDiff
          [("x", Value.scalar "1"), ("y", Value.sequence [Value.scalar "1", Value.scalar "2"])]
          [("x", Value.scalar "2"), ("y", Value.sequence [Value.scalar "1", Value.scalar "2", Value.scalar "3"])]).changes ↔
      ([PathSeg.key "y", PathSeg.idx 2], DiffKind.added) ∈
        (computeDiff
          [("x", Value.scalar "2"), ("y", Value.sequence [Value.scalar "1", Value.scalar "2", Value.scalar "3"])]
          [("x", Value.scalar "1"), ("y", Value.sequence [Value.scalar "1", Value.scalar "2"])]).changes) ∧
    (([PathSeg.key "y", PathSeg.idx 2], DiffKind.modified) ∈
        (computeDiff
          [("x", Value.scalar "1"), ("y", Value.sequence [Value.scalar "1", Value.scalar "2"])]
          [("x", Value.scalar "2"), ("y", Value.sequence [Value.scalar "1", Value.scalar "2", Value.scalar "3"])]).changes ↔
      ([PathSeg.key "y", PathSeg.idx 2], DiffKind.modified) ∈
        (computeDiff
          [("x", Value.scalar "2"), ("y", Value.sequence [Value.scalar "1", Value.scalar "2", Value.scalar "3"])]
          [("x", Value.scalar "1"), ("y", Value.sequence [Value.scalar "1", Value.scalar "2"])]).changes) :=
  diff_symmetry
    [("x", Value.scalar "1"), ("y", Value.sequence [Value.scalar "1", Value.scalar "2"])]
    [("x", Value.scalar "2"), ("y", Value.sequence [Value.scalar "1", Value.scalar "2", Value.scalar "3"])]
    (by decide) (by decide) [PathSeg.key "y", PathSeg.idx 2]

/-- `true` iff the path denotes a node of the value: sequences are indexed
by position, mappings by key; the empty path denotes the value itself. -/
def pathInValue : Value → NodePath → Bool
  | _, [] => true
  | Value.sequence xs, PathSeg.idx i :: rest =>
    (match xs[i]? with
     | some x => pathInValue x rest
     | none => false)
  | Value.mapping xs, PathSeg.key kk :: rest =>
    (match lookupVal xs kk with
     | some v => pathInValue v rest
     | none => false)
  | _, _ => false

/-- `true` iff the path denotes a node of the snapshot: the first segment
names a top-level entry, the rest descends into its value. -/
def pathInSnapshot (s : List (String × Value)) (p : NodePath) : Bool :=
  match p with
  | PathSeg.key kk :: rest =>
    (match lookupVal s kk with
     | some v => pathInValue v rest
     | none => false)
  | _ => false

theorem diffNode_pathIn_aux :
    ∀ n cv, sizeOf cv ≤ n → wfValue cv = true →
      ∀ pv path p k, (p, k) ∈ diffNode path pv cv → k ≠ DiffKind.removed →
        ∃ suffix, p = path ++ suffix ∧ pathInValue cv suffix = true := by
  intro n
  induction n with
  | zero =>
    intro cv h
    exact absurd h (by have := value_sizeOf_pos cv; omega)
  | succ n ih =>
    intro cv hsz hwc pv path p k hmem hk
    cases pv with
    | scalar a =>
      cases cv with
      | scalar b =>
        by_cases hab : a = b
        · subst hab
          simp [diffNode] at hmem
        · simp only [diffNode, if_neg hab, List.mem_singleton, Prod.mk.injEq] at hmem
          exact ⟨[], by simp [hmem.1], by simp [pathInValue]⟩
      | sequence ys =>
        simp only [diffNode, List.mem_singleton, Prod.mk.injEq] at hmem
        exact ⟨[], by simp [hmem.1], by simp [pathInValue]⟩
      | mapping ys =>
        simp only [diffNode, List.mem_singleton, Prod.mk.injEq] at hmem
        exact ⟨[], by simp [hmem.1], by simp [pathInValue]⟩
    | sequence xs =>
      cases cv with
      | scalar b =>
        simp only [diffNode, List.mem_singleton, Prod.mk.injEq] at hmem
        exact ⟨[], by simp [hmem.1], by simp [pathInValue]⟩
      | mapping ys =>
        simp only [diffNode, List.mem_singleton, Prod.mk.injEq] at hmem
        exact ⟨[], by simp [hmem.1], by simp [pathInValue]⟩
      | sequence ys =>
        rw [show diffNode path (Value.sequence xs) (Value.sequence ys) = diffSeq path 0 xs ys from rfl] at hmem
        rw [mem_diffSeq] at hmem
        have hysz : sizeOf (Value.sequence ys) = 1 + sizeOf ys := by simp
        have hwys : wfValues ys = true := by simpa [wfValue] using hwc
        rcases hmem with ⟨j, x, y, h1, h2, h3⟩ | ⟨j, h1, h2, h3, h4⟩ | ⟨j, h1, h2, h3, h4⟩
        · have hy := sizeOf_getElem? h2
          obtain ⟨suffix, hp, hin⟩ :=
            ih y (by omega) (wfValues_mem hwys (List.getElem?_mem h2)) x
              (path ++ [PathSeg.idx (0 + j)]) p k h3 hk
          refine ⟨PathSeg.idx j :: suffix, ?_, ?_⟩
          · rw [hp]
            simp [List.append_assoc]
          · simp only [pathInValue, h2]
            exact hin
        · refine ⟨[PathSeg.idx j], by simp [h3], ?_⟩
          simp only [pathInValue, List.getElem?_eq_getElem h2]
        · exact absurd h4 hk
    | mapping xs =>
      cases cv with
      | scalar b =>
        simp only [diffNode, List.mem_singleton, Prod.mk.injEq] at hmem
        exact ⟨[], by simp [hmem.1], by simp [pathInValue]⟩
      | sequence ys =>
        simp only [diffNode, List.mem_singleton, Prod.mk.injEq] at hmem
        exact ⟨[], by simp [hmem.1], by simp [pathInValue]⟩
      | mapping ys =>
        rw [show diffNode path (Value.mapping xs) (Value.mapping ys)
              = diffMapCur path xs ys ++ diffMapRemoved path xs ys from rfl] at hmem
        have hysz : sizeOf (Value.mapping ys) = 1 + sizeOf ys := by simp
        have hwy : nodupKeysB (ys.map Prod.fst) = true ∧ wfEntries ys = true := by
          simpa [wfValue, Bool.and_eq_true] using hwc
        rw [List.mem_append] at hmem
        rcases hmem with hcur | hrem
        · obtain ⟨kk, cv', hmemys, hcase⟩ := mem_diffMapCur.mp hcur
          have hlook : lookupVal ys kk = some cv' := mem_lookupVal_of_nodup hwy.1 hmemys
          rcases hcase with ⟨hnone, hpp, hkk⟩ | ⟨pv', hsome, hmemn⟩
          · refine ⟨[PathSeg.key kk], by simp [hpp], ?_⟩
            simp only [pathInValue, hlook]
          · have hszc : sizeOf cv' < sizeOf ys := sizeOf_snd_lt hmemys
            obtain ⟨suffix, hp, hin⟩ :=
              ih cv' (by omega) (wfEntries_mem hwy.2 hmemys) pv'
                (path ++ [PathSeg.key kk]) p k hmemn hk
            refine ⟨PathSeg.key kk :: suffix, ?_, ?_⟩
            · rw [hp]
              simp [List.append_assoc]
            · simp only [pathInValue, hlook]
              exact hin
        · obtain ⟨kk, pv', hmemxs, hnone, hpp, hkk⟩ := mem_diffMapRemoved.mp hrem
          exact absurd hkk hk

theorem computeDiff_pathIn {prev cur : List (String × Value)}
    (hc : wfSnapshot cur = true) {p : NodePath} {k : DiffKind}
    (h : (p, k) ∈ (computeDiff prev cur).changes) (hk : k ≠ DiffKind.removed) :
    pathInSnapshot cur p = true := by
  have hwy : nodupKeysB (cur.map Prod.fst) = true ∧ wfEntries cur = true := by
    simpa [wfSnapshot, Bool.and_eq_true] using hc
  rw [show (computeDiff prev cur).changes
        = diffMapCur [] prev cur ++ diffMapRemoved [] prev cur from rfl] at h
  rw [List.mem_append] at h
  rcases h with hcur | hrem
  · obtain ⟨kk, cv', hmemys, hcase⟩ := mem_diffMapCur.mp hcur
    have hlook : lookupVal cur kk = some cv' := mem_lookupVal_of_nodup hwy.1 hmemys
    rcases hcase with ⟨hnone, hpp, hkk⟩ | ⟨pv', hsome, hmemn⟩
    · subst hpp
      simp only [List.nil_append, pathInSnapshot, hlook]
      simp [pathInValue]
    · obtain ⟨suffix, hp, hin⟩ :=
        diffNode_pathIn_aux (sizeOf cv') cv' (Nat.le_refl _) (wfEntries_mem hwy.2 hmemys) pv'
          ([] ++ [PathSeg.key kk]) p k hmemn hk
      subst hp
      simp only [List.nil_append, List.singleton_append, pathInSnapshot, hlook]
      exact hin
  · obtain ⟨kk, pv', hmemxs, hnone, hpp, hkk⟩ := mem_diffMapRemoved.mp hrem
    exact absurd hkk hk

theorem renderValue_cons (name : String) (v : Value) (path : NodePath) (es : ExpansionState)
    (diff : DiffResult) (inh : Option DiffKind) (depth width : Nat) :
    ∃ rest, renderValue name v path es diff inh depth width
      = TreeLine.mk path depth (isExpandable v) (effectiveDiff diff path inh)
          (buildSpans name v depth width) :: rest := by
  cases v <;> exact ⟨_, rfl⟩

theorem renderSeq_mem_sub {xs : List Value} :
    ∀ {j : Nat} {x : Value}, xs[j]? = some x →
      ∀ path (es : ExpansionState) diff inh depth width i l,
        l ∈ renderValue (toString (i + j)) x (path ++ [PathSeg.idx (i + j)]) es diff inh depth width →
        l ∈ renderSeq xs path es diff inh depth width i := by
  induction xs with
  | nil =>
    intro j x h
    simp at h
  | cons x0 rest ih =>
    intro j x h path es diff inh depth width i l hl
    cases j with
    | zero =>
      simp only [List.getElem?_cons_zero, Option.some.injEq] at h
      subst h
      rw [show renderSeq (x0 :: rest) path es diff inh depth width i
            = renderValue (toString i) x0 (path ++ [PathSeg.idx i]) es diff inh depth width
              ++ renderSeq rest path es diff inh depth width (i + 1) from rfl]
      refine List.mem_append_left _ ?_
      simpa using hl
    | succ j =>
      simp only [List.getElem?_cons_succ] at h
      rw [show renderSeq (x0 :: rest) path es diff inh depth width i
            = renderValue (toString i) x0 (path ++ [PathSeg.idx i]) es diff inh depth width
              ++ renderSeq rest path es diff inh depth width (i + 1) from rfl]
      refine List.mem_append_right _ ?_
      refine ih h path es diff inh depth width (i + 1) l ?_
      have hidx : i + 1 + j = i + (j + 1) := by omega
      rw [hidx]
      exact hl

theorem renderMap_mem_sub {xs : List (String × Value)} {kk : String} {v : Value}
    (h : (kk, v) ∈ xs) :
    ∀ path (es : ExpansionState) diff inh depth width l,
      l ∈ renderValue kk v (path ++ [PathSeg.key kk]) es diff inh depth width →
      l ∈ renderMap xs path es diff inh depth width := by
  induction xs with
  | nil => simp at h
  | cons kv0 rest ih =>
    intro path es diff inh depth width l hl
    rw [show renderMap (kv0 :: rest) path es diff inh depth width
          = renderValue kv0.1 kv0.2 (path ++ [PathSeg.key kv0.1]) es diff inh depth width
            ++ renderMap rest path es diff inh depth width from rfl]
    rcases List.mem_cons.mp h with h0 | h0
    · subst h0
      exact List.mem_append_left _ hl
    · exact List.mem_append_right _ (ih h0 path es diff inh depth width l hl)

theorem render_reaches :
    ∀ (suffix : NodePath) (v : Value) (name : String) (path : NodePath) (es : ExpansionState)
      (diff : DiffResult) (inh : Option DiffKind) (depth width : Nat),
      pathInValue v suffix = true →
      (∀ m, m < suffix.length → path ++ suffix.take m ∈ es.paths) →
      ∃ l ∈ renderValue name v path es diff inh depth width, l.path = path ++ suffix := by
  intro suffix
  induction suffix with
  | nil =>
    intro v name path es diff inh depth width hin hanc
    obtain ⟨rest, hr⟩ := renderValue_cons name v path es diff inh depth width
    rw [hr]
    exact ⟨_, List.mem_cons_self .., by simp⟩
  | cons seg rest ih =>
    intro v name path es diff inh depth width hin hanc
    have hpathmem : path ∈ es.paths := by
      simpa using hanc 0 (by simp)
    cases v with
    | scalar t =>
      cases seg <;> simp [pathInValue] at hin
    | sequence xs =>
      cases seg with
      | key kk => simp [pathInValue] at hin
      | idx i =>
        cases hx : xs[i]? with
        | none => simp [pathInValue, hx] at hin
        | some x =>
          rw [show pathInValue (Value.sequence xs) (PathSeg.idx i :: rest)
                = (match xs[i]? with
                   | some x => pathInValue x rest
                   | none => false) from rfl, hx] at hin
          have hanc2 : ∀ m, m < rest.length →
              (path ++ [PathSeg.idx i]) ++ rest.take m ∈ es.paths := by
            intro m hm
            have := hanc (m + 1) (by simp; omega)
            simpa [List.append_assoc] using this
          obtain ⟨l, hlmem, hlpath⟩ :=
            ih x (toString (0 + i)) (path ++ [PathSeg.idx (0 + i)]) es diff
              (childInherit (effectiveDiff diff path inh)) (depth + 1) width hin
              (by simpa using hanc2)
          refine ⟨l, ?_, by rw [hlpath]; simp [List.append_assoc]⟩
          rw [show renderValue name (Value.sequence xs) path es diff inh depth width
                = TreeLine.mk path depth (isExpandable (Value.sequence xs))
                    (effectiveDiff diff path inh) (buildSpans name (Value.sequence xs) depth width)
                  :: (if path ∈ es.paths then
                        renderSeq xs path es diff
                          (childInherit (effectiveDiff diff path inh)) (depth + 1) width 0
                      else []) from rfl, if_pos hpathmem]
          exact List.mem_cons_of_mem _
            (renderSeq_mem_sub hx path es diff _ (depth + 1) width 0 l hlmem)
    | mapping xs =>
      cases seg with
      | idx i => simp [pathInValue] at hin
      | key kk =>
        cases hx : lookupVal xs kk with
        | none => simp [pathInValue, hx] at hin
        | some v' =>
          rw [show pathInValue (Value.mapping xs) (PathSeg.key kk :: rest)
                = (match lookupVal xs kk with
                   | some v => pathInValue v rest
                   | none => false) from rfl, hx] at hin
          have hanc2 : ∀ m, m < rest.length →
              (path ++ [PathSeg.key kk]) ++ rest.take m ∈ es.paths := by
            intro m hm
            have := hanc (m + 1) (by simp; omega)
            simpa [List.append_assoc] using this
          obtain ⟨l, hlmem, hlpath⟩ :=
            ih v' kk (path ++ [PathSeg.key kk]) es diff
              (childInherit (effectiveDiff diff path inh)) (depth + 1) width hin hanc2
          refine ⟨l, ?_, by rw [hlpath]; simp [List.append_assoc]⟩
          rw [show renderValue name (Value.mapping xs) path es diff inh depth width
                = TreeLine.mk path depth (isExpandable (Value.mapping xs))
                    (effectiveDiff diff path inh) (buildSpans name (Value.mapping xs) depth width)
                  :: (if path ∈ es.paths then
                        renderMap xs path es diff
                          (childInherit (effectiveDiff diff path inh)) (depth + 1) width
                      else []) from rfl, if_pos hpathmem]
          exact List.mem_cons_of_mem _
            (renderMap_mem_sub (lookupVal_mem hx) path es diff _ (depth + 1) width l hlmem)

theorem renderSnapshot_mem_sub {s : List (String × Value)} {kk : String} {v : Value}
    (h : (kk, v) ∈ s) :
    ∀ (es : ExpansionState) diff width l,
      l ∈ renderValue kk v [PathSeg.key kk] es diff none 0 width →
      l ∈ renderSnapshot s es diff width := by
  induction s with
  | nil => simp at h
  | cons kv0 rest ih =>
    intro es diff width l hl
    rw [show renderSnapshot (kv0 :: rest) es diff width
          = renderValue kv0.1 kv0.2 [PathSeg.key kv0.1] es diff none 0 width
            ++ renderSnapshot rest es diff width by
        obtain ⟨n0, v0⟩ := kv0
        rfl]
    rcases List.mem_cons.mp h with h0 | h0
    · subst h0
      exact List.mem_append_left _ hl
    · exact List.mem_append_right _ (ih h0 es diff width l hl)

theorem renderSnapshot_reaches (s : List (String × Value)) (es : ExpansionState)
    (diff : DiffResult) (width : Nat) (p : NodePath)
    (hin : pathInSnapshot s p = true)
    (hanc : ∀ m, 0 < m → m < p.length → p.take m ∈ es.paths) :
    ∃ l ∈ renderSnapshot s es diff width, l.path = p := by
  cases p with
  | nil => simp [pathInSnapshot] at hin
  | cons seg rest =>
    cases seg with
    | idx i => simp [pathInSnapshot] at hin
    | key kk =>
      cases hx : lookupVal s kk with
      | none => simp [pathInSnapshot, hx] at hin
      | some v =>
        rw [show pathInSnapshot s (PathSeg.key kk :: rest)
              = (match lookupVal s kk with
                 | some v => pathInValue v rest
                 | none => false) from rfl, hx] at hin
        have hanc2 : ∀ m, m < rest.length → [PathSeg.key kk] ++ rest.take m ∈ es.paths := by
          intro m hm
          have := hanc (m + 1) (by omega) (by simp; omega)
          simpa using this
        obtain ⟨l, hlmem, hlpath⟩ :=
          render_reaches rest v kk [PathSeg.key kk] es diff none 0 width hin hanc2
        exact ⟨l, renderSnapshot_mem_sub (lookupVal_mem hx) es diff width l hlmem,
          by simpa using hlpath⟩

theorem mem_strictAncestors {p q : NodePath} :
    q ∈ strictAncestors p ↔ ∃ m, 0 < m ∧ m < p.length ∧ q = p.take m := by
  simp only [strictAncestors, List.mem_filter, List.mem_map, List.mem_range]
  constructor
  · rintro ⟨⟨m, hm, htake⟩, hne⟩
    refine ⟨m, ?_, hm, htake.symm⟩
    by_contra h0
    have hm0 : m = 0 := by omega
    subst hm0
    subst htake
    simp at hne
  · rintro ⟨m, hm0, hmlt, hq⟩
    refine ⟨⟨m, hmlt, hq.symm⟩, ?_⟩
    subst hq
    have hlen : (p.take m).length = m := by
      simp [List.length_take]
      omega
    simp only [Bool.not_eq_true', ← Bool.not_eq_true]
    intro hemp
    rw [List.isEmpty_iff] at hemp
    rw [hemp] at hlen
    simp at hlen
    omega

theorem compute_diff_auto (a : App) :
    compute_diff_for_state (auto_expand_changes a) = compute_diff_for_state a := rfl

theorem wfTrace_getElem {t : Trace} (h : wfTrace t = true) {i : Nat}
    (hi : i < t.states.length) : wfSnapshot (t.states[i]).values = true := by
  simp only [wfTrace, List.all_eq_true] at h
  exact h _ (t.states.getElem_mem hi)

theorem auto_expand_core (a : App) (hwf : wfTrace a.trace = true)
    (hcur : a.current_state < a.trace.states.length) (w : Nat) :
    ((auto_expand_changes a).expansion.paths
        = ((compute_diff_for_state a).changes.map Prod.fst).flatMap strictAncestors) ∧
    ∀ p k, (p, k) ∈ (compute_diff_for_state a).changes →
      ((∀ q ∈ strictAncestors p, q ∈ (auto_expand_changes a).expansion.paths) ∧
       (k ≠ DiffKind.removed →
         ∃ l ∈ build_tree_lines (auto_expand_changes a) (compute_diff_for_state a) w,
           l.path = p)) := by
  have hexp : (auto_expand_changes a).expansion.paths
      = ((compute_diff_for_state a).changes.map Prod.fst).flatMap strictAncestors := by
    simp only [auto_expand_changes, ExpansionState.clear, ExpansionState.expand_to_changes,
      List.append_nil]
    rfl
  refine ⟨hexp, ?_⟩
  intro p k hmem
  constructor
  · intro q hq
    rw [hexp]
    exact List.mem_flatMap.mpr ⟨p, List.mem_map_of_mem Prod.fst hmem, hq⟩
  · intro hk
    by_cases h0 : a.current_state = 0
    · rw [show compute_diff_for_state a = ⟨[]⟩ by simp [compute_diff_for_state, h0]] at hmem
      simp at hmem
    · have hd : compute_diff_for_state a
          = computeDiff (a.trace.states.getD (a.current_state - 1) ⟨[]⟩).values
              (a.trace.states.getD a.current_state ⟨[]⟩).values := by
        simp [compute_diff_for_state, h0]
      have hgd : a.trace.states.getD a.current_state ⟨[]⟩ = a.trace.states[a.current_state] :=
        List.getD_eq_getElem _ _ hcur
      have hwfs : wfSnapshot (a.trace.states[a.current_state]).values = true :=
        wfTrace_getElem hwf hcur
      have hmem2 : (p, k) ∈ (computeDiff (a.trace.states.getD (a.current_state - 1) ⟨[]⟩).values
          (a.trace.states[a.current_state]).values).changes := by
        rw [hd, hgd] at hmem
        exact hmem
      have hin : pathInSnapshot (a.trace.states[a.current_state]).values p = true :=
        computeDiff_pathIn hwfs hmem2 hk
      rw [show build_tree_lines (auto_expand_changes a) (compute_diff_for_state a) w
            = renderSnapshot (a.trace.states[a.current_state]).values
                (auto_expand_changes a).expansion (compute_diff_for_state a) w by
          simp [build_tree_lines, auto_expand_changes, List.getElem?_eq_getElem hcur]]
      apply renderSnapshot_reaches _ _ _ _ p hin
      intro m hm0 hmlt
      rw [hexp]
      exact List.mem_flatMap.mpr ⟨p, List.mem_map_of_mem Prod.fst hmem,
        mem_strictAncestors.mpr ⟨m, hm0, hmlt, rfl⟩⟩

theorem handleKey_nextState_eq (app : App) (tl : List TreeLine) (lc vh : Nat)
    (h : app.current_state + 1 < app.trace.states.length) (hauto : app.auto_expand = true) :
    handleKey app tl lc vh Command.nextState
      = auto_expand_changes
          { app with current_state := app.current_state + 1, cursor := 0, scroll_offset := 0 } := by
  simp [handleKey, h, hauto]

theorem handleKey_prevState_eq (app : App) (tl : List TreeLine) (lc vh : Nat)
    (h : 0 < app.current_state) (hauto : app.auto_expand = true) :
    handleKey app tl lc vh Command.prevState
      = auto_expand_changes
          { app with current_state := app.current_state - 1, cursor := 0, scroll_offset := 0 } := by
  simp [handleKey, h, hauto]

/-- C1 (amended): on every accepted snapshot navigation with auto-expand
enabled, the expansion set is first cleared and then becomes exactly the
strict ancestor prefixes of the changed paths of the new diff; hence every
changed path has all of its strict ancestors in the expansion set, and
every changed path that is not Removed — the Removed ones denote nodes
absent from the new snapshot — appears as the path of a TreeLine of the
materialized line list. -/
theorem auto_expand_reveals_changes (app : App) (tl : List TreeLine) (lc vh w : Nat)
    (hwf : wfTrace app.trace = true) (hauto : app.auto_expand = true)
    (hcb : app.current_state < app.trace.states.length) :
    (app.current_state + 1 < app.trace.states.length →
      ((handleKey app tl lc vh Command.nextState).expansion.paths
          = (((compute_diff_for_state (handleKey app tl lc vh Command.nextState)).changes.map
              Prod.fst).flatMap strictAncestors) ∧
       ∀ p k,
         (p, k) ∈ (compute_diff_for_state (handleKey app tl lc vh Command.nextState)).changes →
         ((∀ q ∈ strictAncestors p,
             q ∈ (handleKey app tl lc vh Command.nextState).expansion.paths) ∧
          (k ≠ DiffKind.removed →
            ∃ l ∈ build_tree_lines (handleKey app tl lc vh Command.nextState)
                (compute_diff_for_state (handleKey app tl lc vh Command.nextState)) w,
              l.path = p)))) ∧
    (0 < app.current_state →
      ((handleKey app tl lc vh Command.prevState).expansion.paths
          = (((compute_diff_for_state (handleKey app tl lc vh Command.prevState)).changes.map
              Prod.fst).flatMap strictAncestors) ∧
       ∀ p k,
         (p, k) ∈ (compute_diff_for_state (handleKey app tl lc vh Command.prevState)).changes →
         ((∀ q ∈ strictAncestors p,
             q ∈ (handleKey app tl lc vh Command.prevState).expansion.paths) ∧
          (k ≠ DiffKind.removed →
            ∃ l ∈ build_tree_lines (handleKey app tl lc vh Command.prevState)
                (compute_diff_for_state (handleKey app tl lc vh Command.prevState)) w,
              l.path = p)))) := by
  constructor
  · intro h
    rw [handleKey_nextState_eq app tl lc vh h hauto]
    rw [compute_diff_auto]
    exact auto_expand_core
      { app with current_state := app.current_state + 1, cursor := 0, scroll_offset := 0 }
      hwf h w
  · intro h
    rw [handleKey_prevState_eq app tl lc vh h hauto]
    rw [compute_diff_auto]
    exact auto_expand_core
      { app with current_state := app.current_state - 1, cursor := 0, scroll_offset := 0 }
      hwf (by simp; omega) w

/-- A two-snapshot trace in which the mapping entry `m.b` disappears in the
second snapshot. -/
def removedTrace : Trace :=
  ⟨[⟨[("m", Value.mapping [("a", Value.scalar "1"), ("b", Value.scalar "2")])]⟩,
    ⟨[("m", Value.mapping [("a", Value.scalar "1")])]⟩]⟩

/-- The session at the first snapshot of `removedTrace`, auto-expand
enabled. -/
def removedApp : App := ⟨removedTrace, 0, false, ⟨[]⟩, 0, 0, true⟩

/-- C1 counterexample: navigating forward on `removedTrace` with
auto-expand produces the changed path `m.b`, classified Removed, yet no
TreeLine of the materialized line list carries that path — the node no
longer exists in the new snapshot, so the claim fails for Removed paths. -/
theorem auto_expand_removed_counterexample :
    (([PathSeg.key "m", PathSeg.key "b"], DiffKind.removed) ∈
      (compute_diff_for_state (handleKey removedApp [] 0 0 Command.nextState)).changes) ∧
    [PathSeg.key "m", PathSeg.key "b"] ∉
      (build_tree_lines (handleKey removedApp [] 0 0 Command.nextState)
        (compute_diff_for_state (handleKey removedApp [] 0 0 Command.nextState)) 80).map
        TreeLine.path := by
  decide

theorem auto_expand_reveals_changes_witness :
    ((handleKey removedApp [] 0 0 Command.nextState).expansion.paths
        = (((compute_diff_for_state (handleKey removedApp [] 0 0 Command.nextState)).changes.map
            Prod.fst).flatMap strictAncestors) ∧
     ∀ p k,
       (p, k) ∈ (compute_diff_for_state (handleKey removedApp [] 0 0 Command.nextState)).changes →
       ((∀ q ∈ strictAncestors p,
           q ∈ (handleKey removedApp [] 0 0 Command.nextState).expansion.paths) ∧
        (k ≠ DiffKind.removed →
          ∃ l ∈ build_tree_lines (handleKey removedApp [] 0 0 Command.nextState)
              (compute_diff_for_state (handleKey removedApp [] 0 0 Command.nextState)) 80,
            l.path = p))) :=
  (auto_expand_reveals_changes removedApp [] 0 0 80 (by decide) rfl (by decide)).1 (by decide)
